import Mathlib

/-!
Verification of the storage core of the terminal diary application
(`diary.py`): the `SQLiteStorage` and `JSONStorage` backends, embedded
shallowly.  Strings are modelled as lists of characters (`Str`), the
SQLite table as a list of rows in rowid (insertion) order, and the JSON
document as a list of entries in file order.  Timestamps and fresh ids,
produced effectfully in the source (`datetime.utcnow`, `uuid4`), are taken
as explicit parameters.
-/

set_option maxRecDepth 4000

namespace TerminalDiary

/-- Text is a sequence of code points, as in Python. -/
abbrev Str := List Char

/-- Strict lexicographic order on code-point sequences: Python's `<` on
`str`, SQLite's BINARY collation on UTF-8 text (same order). -/
def strLt : Str → Str → Bool
  | [], [] => false
  | [], _ :: _ => true
  | _ :: _, [] => false
  | a :: as, b :: bs => decide (a < b) || (decide (a = b) && strLt as bs)

/-- Non-strict lexicographic order on code-point sequences. -/
def strLe (a b : Str) : Bool := strLt a b || a == b

theorem strLt_trans {a b c : Str} (h1 : strLt a b = true) (h2 : strLt b c = true) :
    strLt a c = true := by
  induction a generalizing b c with
  | nil =>
    cases b with
    | nil => simp [strLt] at h1
    | cons y bs =>
      cases c with
      | nil => simp [strLt] at h2
      | cons z cs => simp [strLt]
  | cons x as ih =>
    cases b with
    | nil => simp [strLt] at h1
    | cons y bs =>
      cases c with
      | nil => simp [strLt] at h2
      | cons z cs =>
        simp only [strLt, Bool.or_eq_true, Bool.and_eq_true, decide_eq_true_eq] at h1 h2 ⊢
        rcases h1 with h1 | ⟨rfl, h1⟩
        · rcases h2 with h2 | ⟨rfl, h2⟩
          · exact Or.inl (lt_trans h1 h2)
          · exact Or.inl h1
        · rcases h2 with h2 | ⟨rfl, h2⟩
          · exact Or.inl h2
          · exact Or.inr ⟨rfl, ih h1 h2⟩

theorem strLt_trich (a b : Str) : strLt a b = true ∨ a = b ∨ strLt b a = true := by
  induction a generalizing b with
  | nil =>
    cases b with
    | nil => exact Or.inr (Or.inl rfl)
    | cons y bs => exact Or.inl (by simp [strLt])
  | cons x as ih =>
    cases b with
    | nil => exact Or.inr (Or.inr (by simp [strLt]))
    | cons y bs =>
      rcases lt_trichotomy x y with hxy | hxy | hxy
      · exact Or.inl (by simp [strLt, hxy])
      · subst hxy
        rcases ih bs with h | h | h
        · exact Or.inl (by simp [strLt, h])
        · exact Or.inr (Or.inl (by rw [h]))
        · exact Or.inr (Or.inr (by simp [strLt, h]))
      · exact Or.inr (Or.inr (by simp [strLt, hxy]))

theorem strLt_irrefl (a : Str) : strLt a a = false := by
  induction a with
  | nil => simp [strLt]
  | cons x as ih => simp [strLt, ih]

theorem strLe_refl (a : Str) : strLe a a = true := by
  simp [strLe]

theorem strLe_total (a b : Str) : strLe a b = true ∨ strLe b a = true := by
  rcases strLt_trich a b with h | h | h
  · exact Or.inl (by simp [strLe, h])
  · subst h; exact Or.inl (strLe_refl a)
  · exact Or.inr (by simp [strLe, h])

theorem strLe_trans {a b c : Str} (h1 : strLe a b = true) (h2 : strLe b c = true) :
    strLe a c = true := by
  simp only [strLe, Bool.or_eq_true, beq_iff_eq] at h1 h2 ⊢
  rcases h1 with h1 | rfl
  · rcases h2 with h2 | rfl
    · exact Or.inl (strLt_trans h1 h2)
    · exact Or.inl h1
  · exact h2

theorem strLt_of_lt_of_le {a b c : Str} (h1 : strLt a b = true) (h2 : strLe b c = true) :
    strLt a c = true := by
  simp only [strLe, Bool.or_eq_true, beq_iff_eq] at h2
  rcases h2 with h2 | rfl
  · exact strLt_trans h1 h2
  · exact h1

theorem strLe_of_lt {a b : Str} (h : strLt a b = true) : strLe a b = true := by
  simp [strLe, h]

theorem strLt_asymm {a b : Str} (h : strLt a b = true) : strLt b a = false := by
  by_contra hc
  have hb : strLt b a = true := by
    cases hba : strLt b a
    · exact absurd hba hc
    · rfl
  have := strLt_trans h hb
  rw [strLt_irrefl] at this
  exact Bool.noConfusion this

/-! ### Stable descending sort

`stSort leq` models Python's stable `sorted(..., reverse=True)` where
`leq x y` decides "key of `x` ≤ key of `y`": an element is inserted in
front of the first element whose key is not larger, so earlier input
elements precede later ones on equal keys.  SQLite's `ORDER BY ... DESC`
over a single table scan is modelled by the same sort. -/

def stInsert (leq : α → α → Bool) (e : α) : List α → List α
  | [] => [e]
  | x :: xs => if leq x e then e :: x :: xs else x :: stInsert leq e xs

def stSort (leq : α → α → Bool) : List α → List α
  | [] => []
  | x :: xs => stInsert leq x (stSort leq xs)

theorem stInsert_perm (leq : α → α → Bool) (e : α) (l : List α) :
    List.Perm (stInsert leq e l) (e :: l) := by
  induction l with
  | nil => simp [stInsert]
  | cons x xs ih =>
    simp only [stInsert]
    by_cases h : leq x e = true
    · simp [h]
    · simp only [h, if_false]
      exact List.Perm.trans (List.Perm.cons x ih) (List.Perm.swap e x xs)

theorem stSort_perm (leq : α → α → Bool) (l : List α) :
    List.Perm (stSort leq l) l := by
  induction l with
  | nil => simp [stSort]
  | cons x xs ih =>
    exact List.Perm.trans (stInsert_perm leq x (stSort leq xs)) (List.Perm.cons x ih)

theorem mem_stSort {leq : α → α → Bool} {l : List α} {a : α} :
    a ∈ stSort leq l ↔ a ∈ l :=
  (stSort_perm leq l).mem_iff

theorem stInsert_pairwise {leq : α → α → Bool}
    (htot : ∀ a b, leq a b = true ∨ leq b a = true)
    (htr : ∀ a b c, leq a b = true → leq b c = true → leq a c = true)
    {l : List α} (e : α) (h : l.Pairwise (fun a b => leq b a = true)) :
    (stInsert leq e l).Pairwise (fun a b => leq b a = true) := by
  induction l with
  | nil => simp [stInsert]
  | cons x xs ih =>
    rw [List.pairwise_cons] at h
    obtain ⟨hx, hxs⟩ := h
    simp only [stInsert]
    by_cases hle : leq x e = true
    · simp only [hle, if_true]
      refine List.pairwise_cons.mpr ⟨?_, List.pairwise_cons.mpr ⟨hx, hxs⟩⟩
      intro y hy
      rcases List.mem_cons.mp hy with rfl | hy
      · exact hle
      · exact htr y x e (hx y hy) hle
    · simp only [hle, if_false]
      refine List.pairwise_cons.mpr ⟨?_, ih hxs⟩
      intro y hy
      have hy' : y ∈ e :: xs := (stInsert_perm leq e xs).mem_iff.mp hy
      rcases List.mem_cons.mp hy' with rfl | hy'
      · rcases htot x y with h' | h'
        · exact absurd h' hle
        · exact h'
      · exact hx y hy'

theorem stSort_pairwise {leq : α → α → Bool}
    (htot : ∀ a b, leq a b = true ∨ leq b a = true)
    (htr : ∀ a b c, leq a b = true → leq b c = true → leq a c = true)
    (l : List α) :
    (stSort leq l).Pairwise (fun a b => leq b a = true) := by
  induction l with
  | nil => simp [stSort]
  | cons x xs ih => exact stInsert_pairwise htot htr x ih

theorem stInsert_filter_pos {leq : α → α → Bool} {p : α → Bool} {e : α}
    (hpe : p e = true) (hcomp : ∀ x, p x = true → leq x e = true) (l : List α) :
    (stInsert leq e l).filter p = e :: l.filter p := by
  induction l with
  | nil => simp [stInsert, List.filter, hpe]
  | cons x xs ih =>
    simp only [stInsert]
    by_cases hle : leq x e = true
    · simp [hle, List.filter, hpe]
    · simp only [hle, if_false]
      have hpx : p x = false := by
        cases hx : p x
        · rfl
        · exact absurd (hcomp x hx) hle
      simp [List.filter, hpx, ih]

theorem stInsert_filter_neg {leq : α → α → Bool} {p : α → Bool} {e : α}
    (hpe : p e = false) (l : List α) :
    (stInsert leq e l).filter p = l.filter p := by
  induction l with
  | nil => simp [stInsert, List.filter, hpe]
  | cons x xs ih =>
    simp only [stInsert]
    by_cases hle : leq x e = true
    · simp [hle, List.filter, hpe]
    · cases hx : p x <;> simp [hle, List.filter, hx, ih]

/-- Stability of `stSort`: restricting the sorted output to one exact key
value yields the input restricted to that key value, in input order. -/
theorem stSort_filter_key {leq : α → α → Bool} (key : α → Str) (d : Str)
    (hleq : ∀ a b, leq a b = strLe (key a) (key b)) (l : List α) :
    (stSort leq l).filter (fun x => key x == d) = l.filter (fun x => key x == d) := by
  induction l with
  | nil => simp [stSort]
  | cons x xs ih =>
    simp only [stSort]
    by_cases hx : (key x == d) = true
    · have hxd : key x = d := eq_of_beq hx
      have hcomp : ∀ y, (key y == d) = true → leq y x = true := by
        intro y hy
        have hyd : key y = d := eq_of_beq hy
        rw [hleq, hyd, hxd]; exact strLe_refl d
      rw [@stInsert_filter_pos _ leq (fun y => key y == d) x hx hcomp (stSort leq xs)]
      rw [ih]; simp [List.filter, hx]
    · have hx' : (key x == d) = false := by
        cases h : (key x == d)
        · rfl
        · exact absurd h hx
      rw [@stInsert_filter_neg _ leq (fun y => key y == d) x hx' (stSort leq xs)]
      rw [ih]; simp [List.filter, hx']

theorem stInsert_map {leqA : α → α → Bool} {leqB : β → β → Bool} (f : α → β)
    (h : ∀ a b, leqA a b = leqB (f a) (f b)) (e : α) (l : List α) :
    (stInsert leqA e l).map f = stInsert leqB (f e) (l.map f) := by
  induction l with
  | nil => simp [stInsert]
  | cons x xs ih =>
    simp only [stInsert, List.map]
    rw [← h]
    by_cases hle : leqA x e = true
    · simp [hle]
    · simp [hle, ih]

theorem stSort_map {leqA : α → α → Bool} {leqB : β → β → Bool} (f : α → β)
    (h : ∀ a b, leqA a b = leqB (f a) (f b)) (l : List α) :
    (stSort leqA l).map f = stSort leqB (l.map f) := by
  induction l with
  | nil => simp [stSort]
  | cons x xs ih =>
    simp only [stSort, List.map]
    rw [stInsert_map f h, ih]

/-! ### Text helpers: case folding, substring, LIKE, tag encoding -/

/-- ASCII lower-casing of one character (`str.lower` on the ASCII range,
and the case folding SQLite's default `LIKE` applies). -/
def asciiLower (c : Char) : Char :=
  if 'A' ≤ c ∧ c ≤ 'Z' then Char.ofNat (c.toNat + 32) else c

/-- `str.lower()` (modelled on the ASCII range). -/
def lowerStr (s : Str) : Str := s.map asciiLower

/-- Does `hay` start with `needle`? -/
def strStarts : Str → Str → Bool
  | [], _ => true
  | _ :: _, [] => false
  | a :: as, b :: bs => a == b && strStarts as bs

/-- Python's `needle in hay`: contiguous substring containment. -/
def strHasSub (needle : Str) : Str → Bool
  | [] => strStarts needle []
  | c :: cs => strStarts needle (c :: cs) || strHasSub needle cs

/-- Fuelled SQLite `LIKE` matcher: `%` matches any sequence, `_` any
single character, other characters literally up to ASCII case.  Every
recursive call strictly decreases `p.length + s.length`, so any fuel
above that sum never runs out. -/
def likeFuel : Nat → Str → Str → Bool
  | 0, _, _ => false
  | _ + 1, [], s => s.isEmpty
  | fuel + 1, p :: ps, s =>
    if p == '%' then
      likeFuel fuel ps s ||
        (match s with
         | [] => false
         | _ :: cs => likeFuel fuel (p :: ps) cs)
    else
      match s with
      | [] => false
      | c :: cs => (p == '_' || asciiLower p == asciiLower c) && likeFuel fuel ps cs

/-- SQLite `LIKE` matching with default (no `ESCAPE`) semantics. -/
def likeMatch (p s : Str) : Bool := likeFuel (p.length + s.length + 1) p s

/-- `",".join(tags)`. -/
def joinTags : List Str → Str
  | [] => []
  | [t] => t
  | t :: u :: ts => t ++ ',' :: joinTags (u :: ts)

/-- Python `s.split(",")`. -/
def splitC : Str → List Str
  | [] => [[]]
  | c :: cs =>
    if c == ',' then [] :: splitC cs
    else
      match splitC cs with
      | [] => [[c]]
      | t :: ts => (c :: t) :: ts

/-- A tag survives the SQLite comma encoding iff it is non-empty and
contains no comma. -/
def goodTag (t : Str) : Bool := !t.isEmpty && t.all (fun c => !(c == ','))

theorem splitC_ne_nil (s : Str) : splitC s ≠ [] := by
  induction s with
  | nil => simp [splitC]
  | cons c cs ih =>
    simp only [splitC]
    by_cases h : (c == ',') = true
    · simp [h]
    · simp only [h]
      cases hs : splitC cs with
      | nil => exact absurd hs ih
      | cons t ts => simp

theorem splitC_append_comma (t : Str) (ht : t.all (fun c => !(c == ',')) = true)
    (rest : Str) : splitC (t ++ ',' :: rest) = t :: splitC rest := by
  induction t with
  | nil => simp [splitC]
  | cons c cs ih =>
    simp only [List.all_cons, Bool.and_eq_true] at ht
    obtain ⟨hc, hcs⟩ := ht
    have hc' : (c == ',') = false := by simpa using hc
    simp [splitC, hc', ih hcs]

theorem splitC_no_comma (t : Str) (ht : t.all (fun c => !(c == ',')) = true) :
    splitC t = [t] := by
  induction t with
  | nil => simp [splitC]
  | cons c cs ih =>
    simp only [List.all_cons, Bool.and_eq_true] at ht
    obtain ⟨hc, hcs⟩ := ht
    have hc' : (c == ',') = false := by simpa using hc
    simp [splitC, hc', ih hcs]

theorem joinTags_ne_nil {t : Str} (ht : goodTag t = true) (ts : List Str) :
    joinTags (t :: ts) ≠ [] := by
  have hne : t ≠ [] := by
    simp only [goodTag, Bool.and_eq_true, Bool.not_eq_true'] at ht
    simpa [List.isEmpty_iff] using ht.1
  cases ts with
  | nil => simpa [joinTags] using hne
  | cons u us =>
    simp only [joinTags]
    intro h
    exact hne (List.append_eq_nil.mp h).1

/-- Round-trip of the SQLite tag encoding on well-behaved tag lists. -/
theorem splitC_joinTags (ts : List Str) (h : ts.all goodTag = true) (hne : ts ≠ []) :
    splitC (joinTags ts) = ts := by
  induction ts with
  | nil => exact absurd rfl hne
  | cons t us ih =>
    simp only [List.all_cons, Bool.and_eq_true] at h
    obtain ⟨ht, hus⟩ := h
    have htnc : t.all (fun c => !(c == ',')) = true := by
      simp only [goodTag, Bool.and_eq_true] at ht
      exact ht.2
    cases us with
    | nil => simp [joinTags, splitC_no_comma t htnc]
    | cons u vs =>
      simp only [joinTags]
      rw [splitC_append_comma t htnc, ih hus (by simp)]

/-! ### Data model (`diary.py`)

An `Entry` is the dictionary shape produced by both backends (all eight
keys present, `tags` a list).  A `Row` is one SQLite table row (`tags`
stored comma-joined).  A `Draft` is the caller-supplied dictionary passed
to `add_entry` / `update_entry`; absent keys are `none`. -/

structure Entry where
  id : Str
  date : Str
  title : Str
  body : Str
  mood : Str
  tags : List Str
  created_at : Str
  updated_at : Str
deriving DecidableEq, Repr

structure Row where
  id : Str
  date : Str
  title : Str
  body : Str
  mood : Str
  tags : Str
  created_at : Str
  updated_at : Str
deriving DecidableEq, Repr

structure Draft where
  id : Option Str
  date : Option Str
  title : Option Str
  body : Option Str
  mood : Option Str
  tags : Option (List Str)
deriving DecidableEq, Repr

/-- Failures of the storage operations: `invalidInput` is the `KeyError`
on a draft missing the required `date` (the spec's InvalidInput);
`idConflict` is the SQLite primary-key violation when a caller-supplied
id already exists. -/
inductive StorageError where
  | invalidInput
  | idConflict
deriving DecidableEq, Repr

instance {ε α : Type} [DecidableEq ε] [DecidableEq α] : DecidableEq (Except ε α) := fun x y =>
  match x, y with
  | .error a, .error b =>
    if h : a = b then isTrue (by rw [h]) else isFalse (by intro hc; cases hc; exact h rfl)
  | .ok a, .ok b =>
    if h : a = b then isTrue (by rw [h]) else isFalse (by intro hc; cases hc; exact h rfl)
  | .error _, .ok _ => isFalse (by intro hc; cases hc)
  | .ok _, .error _ => isFalse (by intro hc; cases hc)

/-- Every tag of the draft survives the SQLite comma join/split encoding. -/
def goodTags (d : Draft) : Bool := (d.tags.getD []).all goodTag

/-! Sort keys.  Python compares `date`/`created_at` strings and tuples;
SQLite compares TEXT under BINARY collation: the same lexicographic
code-point order. -/

/-- Key order for `search_entries`: compare by `date` only. -/
def leDateE (a b : Entry) : Bool := strLe a.date b.date

/-- Key order for `list_entries`: compare by `(date, created_at)`
lexicographically. -/
def leDateCreatedE (a b : Entry) : Bool :=
  strLt a.date b.date || (a.date == b.date && strLe a.created_at b.created_at)

/-- Row order for `ORDER BY created_at`. -/
def leCreatedR (a b : Row) : Bool := strLe a.created_at b.created_at

/-- Row order for `ORDER BY date`. -/
def leDateR (a b : Row) : Bool := strLe a.date b.date

/-- Row order for `ORDER BY date, created_at`. -/
def leDateCreatedR (a b : Row) : Bool :=
  strLt a.date b.date || (a.date == b.date && strLe a.created_at b.created_at)

/-! ### SQLite backend (`SQLiteStorage`)

The table is the list of rows in rowid (insertion) order.  `utcnow` and
`uuid4` are the explicit `now` / `freshId` parameters. -/

namespace SQLiteStorage

/-- `SQLiteStorage._row_to_entry`. -/
def row_to_entry (r : Row) : Entry :=
  { id := r.id, date := r.date, title := r.title, body := r.body, mood := r.mood,
    tags := if r.tags.isEmpty then [] else splitC r.tags,
    created_at := r.created_at, updated_at := r.updated_at }

/-- `SQLiteStorage.add_entry`.  A missing `date` raises (`KeyError` on
`entry["date"]`); inserting an existing primary key raises
(`sqlite3.IntegrityError`). -/
def add_entry (freshId now : Str) (entry : Draft) (rows : List Row) :
    Except StorageError (Str × List Row) :=
  let entry_id := entry.id.getD freshId
  match entry.date with
  | none => .error .invalidInput
  | some d =>
    if rows.any (fun r => r.id == entry_id) then .error .idConflict
    else
      .ok (entry_id,
        rows ++ [{ id := entry_id, date := d, title := entry.title.getD [],
                   body := entry.body.getD [], mood := entry.mood.getD [],
                   tags := joinTags (entry.tags.getD []),
                   created_at := now, updated_at := now }])

/-- `SQLiteStorage.get_entry`. -/
def get_entry (entry_id : Str) (rows : List Row) : Option Entry :=
  (rows.find? (fun r => r.id == entry_id)).map row_to_entry

/-- `SQLiteStorage.get_entries_by_date`:
`SELECT * FROM entries WHERE date = ? ORDER BY created_at DESC`. -/
def get_entries_by_date (d : Str) (rows : List Row) : List Entry :=
  (stSort leCreatedR (rows.filter (fun r => r.date == d))).map row_to_entry

/-- One row matches `title LIKE ? OR body LIKE ? OR tags LIKE ?` with the
pattern `f"%{keyword}%"`. -/
def rowLike (kw : Str) (r : Row) : Bool :=
  let p := '%' :: (kw ++ ['%'])
  likeMatch p r.title || likeMatch p r.body || likeMatch p r.tags

/-- `SQLiteStorage.search_entries`: the `LIKE` filter above,
`ORDER BY date DESC`. -/
def search_entries (kw : Str) (rows : List Row) : List Entry :=
  (stSort leDateR (rows.filter (rowLike kw))).map row_to_entry

/-- `SQLiteStorage.list_entries`:
`SELECT * FROM entries ORDER BY date DESC, created_at DESC`. -/
def list_entries (rows : List Row) : List Entry :=
  (stSort leDateCreatedR rows).map row_to_entry

/-- The row produced by `UPDATE entries SET date=?, title=?, body=?,
mood=?, tags=?, updated_at=? WHERE id=?` on one matching row. -/
def updRow (now d : Str) (upd : Draft) (r : Row) : Row :=
  { r with date := d, title := upd.title.getD [], body := upd.body.getD [],
           mood := upd.mood.getD [], tags := joinTags (upd.tags.getD []),
           updated_at := now }

/-- `SQLiteStorage.update_entry`: a missing `date` raises before the
statement runs; otherwise every row with the id is overwritten and the
result is `rowcount > 0`. -/
def update_entry (now entry_id : Str) (upd : Draft) (rows : List Row) :
    Except StorageError (Bool × List Row) :=
  match upd.date with
  | none => .error .invalidInput
  | some d =>
    .ok (rows.any (fun r => r.id == entry_id),
         rows.map (fun r => if r.id == entry_id then updRow now d upd r else r))

/-- `SQLiteStorage.delete_entry`: `DELETE FROM entries WHERE id = ?`,
result `rowcount > 0`. -/
def delete_entry (entry_id : Str) (rows : List Row) : Bool × List Row :=
  (rows.any (fun r => r.id == entry_id), rows.filter (fun r => !(r.id == entry_id)))

/-- `SQLiteStorage.export_all` returns `self.list_entries()`. -/
def export_all (rows : List Row) : List Entry := list_entries rows

end SQLiteStorage

/-! ### JSON backend (`JSONStorage`)

The document is the `entries` list in file order. -/

namespace JSONStorage

/-- `JSONStorage.add_entry`: appends the stored dictionary; a missing
`date` raises (`KeyError` on `entry["date"]`); no id uniqueness check. -/
def add_entry (freshId now : Str) (entry : Draft) (entries : List Entry) :
    Except StorageError (Str × List Entry) :=
  let entry_id := entry.id.getD freshId
  match entry.date with
  | none => .error .invalidInput
  | some d =>
    .ok (entry_id,
      entries ++ [{ id := entry_id, date := d, title := entry.title.getD [],
                    body := entry.body.getD [], mood := entry.mood.getD [],
                    tags := entry.tags.getD [],
                    created_at := now, updated_at := now }])

/-- `JSONStorage.get_entry`: first entry with the id, else `None`. -/
def get_entry (entry_id : Str) (entries : List Entry) : Option Entry :=
  entries.find? (fun e => e.id == entry_id)

/-- `JSONStorage.get_entries_by_date`: a plain filter, **no sort**. -/
def get_entries_by_date (d : Str) (entries : List Entry) : List Entry :=
  entries.filter (fun e => e.date == d)

/-- One entry matches the keyword: case-insensitive substring of the
title, the body, or some individual tag. -/
def entryMatch (kw : Str) (e : Entry) : Bool :=
  let k := lowerStr kw
  strHasSub k (lowerStr e.title) || strHasSub k (lowerStr e.body) ||
    e.tags.any (fun t => strHasSub k (lowerStr t))

/-- `JSONStorage.search_entries`: filter, then
`sorted(res, key=lambda x: x.get("date", ""), reverse=True)`. -/
def search_entries (kw : Str) (entries : List Entry) : List Entry :=
  stSort leDateE (entries.filter (entryMatch kw))

/-- `JSONStorage.list_entries`:
`sorted(entries, key=lambda x: (date, created_at), reverse=True)`. -/
def list_entries (entries : List Entry) : List Entry :=
  stSort leDateCreatedE entries

/-- The entry produced by `e.update({...})` in `JSONStorage.update_entry`. -/
def updEntry (now d : Str) (upd : Draft) (e : Entry) : Entry :=
  { e with date := d, title := upd.title.getD [], body := upd.body.getD [],
           mood := upd.mood.getD [], tags := upd.tags.getD [],
           updated_at := now }

/-- `JSONStorage.update_entry`: walks the list, rewrites the first entry
with the id and returns `True`; `False` when no entry matches.  The
`KeyError` on a missing `date` fires only when a matching entry is
found. -/
def update_entry (now entry_id : Str) (upd : Draft) :
    List Entry → Except StorageError (Bool × List Entry)
  | [] => .ok (false, [])
  | e :: es =>
    if e.id == entry_id then
      match upd.date with
      | none => .error .invalidInput
      | some d => .ok (true, updEntry now d upd e :: es)
    else
      match update_entry now entry_id upd es with
      | .error err => .error err
      | .ok (b, es2) => .ok (b, e :: es2)

/-- `JSONStorage.delete_entry`: filters the id out; `False` (and no
write) when the length is unchanged. -/
def delete_entry (entry_id : Str) (entries : List Entry) : Bool × List Entry :=
  let new_entries := entries.filter (fun e => !(e.id == entry_id))
  if new_entries.length == entries.length then (false, entries)
  else (true, new_entries)

/-- `JSONStorage.export_all` returns `self.list_entries()`. -/
def export_all (entries : List Entry) : List Entry := list_entries entries

end JSONStorage

/-! ### Replaying operation sequences

One mutating storage operation with its effectful inputs (fresh id,
clock reading) made explicit.  The interactive loop catches any raised
error and leaves the store as it was, so a failing step is a no-op on
the state. -/

inductive Op where
  | addOp (freshId now : Str) (draft : Draft)
  | updateOp (entry_id now : Str) (upd : Draft)
  | deleteOp (entry_id : Str)
deriving DecidableEq, Repr

def sqliteStep (op : Op) (rows : List Row) : List Row :=
  match op with
  | .addOp fid now d =>
    match SQLiteStorage.add_entry fid now d rows with
    | .ok (_, rows2) => rows2
    | .error _ => rows
  | .updateOp i now d =>
    match SQLiteStorage.update_entry now i d rows with
    | .ok (_, rows2) => rows2
    | .error _ => rows
  | .deleteOp i => (SQLiteStorage.delete_entry i rows).2

def sqliteReplay : List Op → List Row → List Row
  | [], rows => rows
  | op :: ops, rows => sqliteReplay ops (sqliteStep op rows)

def jsonStep (op : Op) (st : List Entry) : List Entry :=
  match op with
  | .addOp fid now d =>
    match JSONStorage.add_entry fid now d st with
    | .ok (_, st2) => st2
    | .error _ => st
  | .updateOp i now d =>
    match JSONStorage.update_entry now i d st with
    | .ok (_, st2) => st2
    | .error _ => st
  | .deleteOp i => (JSONStorage.delete_entry i st).2

def jsonReplay : List Op → List Entry → List Entry
  | [], st => st
  | op :: ops, st => jsonReplay ops (jsonStep op st)

/-- Well-formedness of one replayed operation against the current state:
tag lists survive the SQLite encoding, and the id an add will use is
fresh (as a generated `uuid4` is). -/
def okStep (op : Op) (st : List Entry) : Bool :=
  match op with
  | .addOp fid _ d => goodTags d && st.all (fun e => !(e.id == d.id.getD fid))
  | .updateOp _ _ d => goodTags d
  | .deleteOp _ => true

def okTrace : List Op → List Entry → Bool
  | [], _ => true
  | op :: ops, st => okStep op st && okTrace ops (jsonStep op st)

/-- The clock reading an operation uses, if it uses one. -/
def opNow : Op → Option Str
  | .addOp _ now _ => some now
  | .updateOp _ now _ => some now
  | .deleteOp _ => none

/-- The clock readings along the trace are non-decreasing, starting at
lower bound `t`. -/
def monoFrom (t : Str) : List Op → Bool
  | [] => true
  | op :: ops =>
    match opNow op with
    | some n => strLe t n && monoFrom n ops
    | none => monoFrom t ops

/-! ### General list lemmas used by the claim proofs -/

theorem find?_append_last {p : α → Bool} {l : List α} {x : α}
    (h : ∀ a ∈ l, p a = false) (hx : p x = true) :
    (l ++ [x]).find? p = some x := by
  induction l with
  | nil => simp [List.find?, hx]
  | cons a as ih =>
    have ha : p a = false := h a (List.mem_cons_self a as)
    simp only [List.cons_append, List.find?, ha]
    exact ih (fun b hb => h b (List.mem_cons_of_mem a hb))

theorem find?_map_upd (rows : List Row) (i : Str) (f : Row → Row)
    (hf : ∀ r, (f r).id = r.id) :
    (rows.map (fun r => if r.id == i then f r else r)).find? (fun r => r.id == i)
      = (rows.find? (fun r => r.id == i)).map f := by
  induction rows with
  | nil => simp
  | cons r rs ih =>
    by_cases h : (r.id == i) = true
    · have hfr : ((f r).id == i) = true := by rw [hf r]; exact h
      rw [List.map_cons, if_pos h,
        @List.find?_cons_of_pos Row (fun x => x.id == i) (f r) _ hfr,
        @List.find?_cons_of_pos Row (fun x => x.id == i) r _ h, Option.map_some']
    · rw [List.map_cons, if_neg h,
        @List.find?_cons_of_neg Row (fun x => x.id == i) r _ h,
        @List.find?_cons_of_neg Row (fun x => x.id == i) r _ h, ih]

theorem map_upd_no_match (rows : List Row) (i : Str) (f : Row → Row)
    (h : ∀ r ∈ rows, (r.id == i) = false) :
    rows.map (fun r => if r.id == i then f r else r) = rows := by
  induction rows with
  | nil => simp
  | cons r rs ih =>
    have hr : ¬((r.id == i) = true) := by simp [h r (List.mem_cons_self r rs)]
    rw [List.map_cons, if_neg hr, ih (fun b hb => h b (List.mem_cons_of_mem r hb))]

theorem map_updE_no_match (st : List Entry) (i : Str) (f : Entry → Entry)
    (h : ∀ e ∈ st, (e.id == i) = false) :
    st.map (fun e => if e.id == i then f e else e) = st := by
  induction st with
  | nil => simp
  | cons e es ih =>
    have he : ¬((e.id == i) = true) := by simp [h e (List.mem_cons_self e es)]
    rw [List.map_cons, if_neg he, ih (fun b hb => h b (List.mem_cons_of_mem e hb))]

theorem find?_filter_not {p : α → Bool} (l : List α) :
    (l.filter (fun a => !(p a))).find? p = none := by
  induction l with
  | nil => simp
  | cons a as ih =>
    by_cases h : p a = true
    · simp [List.filter, h, ih]
    · have h' : p a = false := by
        cases hb : p a
        · rfl
        · exact absurd hb h
      simp [List.filter, h', ih]

theorem filter_eq_self_of_length {p : α → Bool} (l : List α)
    (h : (l.filter p).length = l.length) : l.filter p = l := by
  induction l with
  | nil => simp
  | cons a as ih =>
    by_cases ha : p a = true
    · simp only [List.filter, ha] at h ⊢
      simp only [List.length_cons, Nat.succ.injEq] at h
      rw [ih h]
    · have ha' : p a = false := by
        cases hb : p a
        · rfl
        · exact absurd hb ha
      simp only [List.filter, ha', List.length_cons] at h
      have hle := List.length_filter_le p as
      omega

/-! ### Totality and transitivity of the sort keys -/

theorem leCreatedR_total (a b : Row) : leCreatedR a b = true ∨ leCreatedR b a = true :=
  strLe_total a.created_at b.created_at

theorem leCreatedR_trans (a b c : Row) (h1 : leCreatedR a b = true)
    (h2 : leCreatedR b c = true) : leCreatedR a c = true :=
  strLe_trans h1 h2

theorem leDateR_total (a b : Row) : leDateR a b = true ∨ leDateR b a = true :=
  strLe_total a.date b.date

theorem leDateR_trans (a b c : Row) (h1 : leDateR a b = true)
    (h2 : leDateR b c = true) : leDateR a c = true :=
  strLe_trans h1 h2

theorem leDateE_total (a b : Entry) : leDateE a b = true ∨ leDateE b a = true :=
  strLe_total a.date b.date

theorem leDateE_trans (a b c : Entry) (h1 : leDateE a b = true)
    (h2 : leDateE b c = true) : leDateE a c = true :=
  strLe_trans h1 h2

theorem pairLex_total (d1 c1 d2 c2 : Str) :
    (strLt d1 d2 || (d1 == d2 && strLe c1 c2)) = true ∨
    (strLt d2 d1 || (d2 == d1 && strLe c2 c1)) = true := by
  rcases strLt_trich d1 d2 with h | h | h
  · exact Or.inl (by simp [h])
  · subst h
    rcases strLe_total c1 c2 with h' | h'
    · exact Or.inl (by simp [h'])
    · exact Or.inr (by simp [h'])
  · exact Or.inr (by simp [h])

theorem pairLex_trans {d1 c1 d2 c2 d3 c3 : Str}
    (h1 : (strLt d1 d2 || (d1 == d2 && strLe c1 c2)) = true)
    (h2 : (strLt d2 d3 || (d2 == d3 && strLe c2 c3)) = true) :
    (strLt d1 d3 || (d1 == d3 && strLe c1 c3)) = true := by
  simp only [Bool.or_eq_true, Bool.and_eq_true, beq_iff_eq] at h1 h2 ⊢
  rcases h1 with h1 | ⟨rfl, h1⟩
  · rcases h2 with h2 | ⟨rfl, h2⟩
    · exact Or.inl (strLt_trans h1 h2)
    · exact Or.inl h1
  · rcases h2 with h2 | ⟨rfl, h2⟩
    · exact Or.inl h2
    · exact Or.inr ⟨rfl, strLe_trans h1 h2⟩

theorem leDateCreatedE_total (a b : Entry) :
    leDateCreatedE a b = true ∨ leDateCreatedE b a = true :=
  pairLex_total a.date a.created_at b.date b.created_at

theorem leDateCreatedE_trans (a b c : Entry) (h1 : leDateCreatedE a b = true)
    (h2 : leDateCreatedE b c = true) : leDateCreatedE a c = true :=
  pairLex_trans h1 h2

theorem leDateCreatedR_total (a b : Row) :
    leDateCreatedR a b = true ∨ leDateCreatedR b a = true :=
  pairLex_total a.date a.created_at b.date b.created_at

theorem leDateCreatedR_trans (a b c : Row) (h1 : leDateCreatedR a b = true)
    (h2 : leDateCreatedR b c = true) : leDateCreatedR a c = true :=
  pairLex_trans h1 h2

/-! ### Sample data for witnesses and counterexamples -/

/-- A sample stored SQLite row (as created by adding tags `["x","y"]`). -/
def rowA : Row :=
  ⟨"a".toList, "2024-01-05".toList, "T".toList, "B".toList, "calm".toList,
   "x,y".toList, "2024-01-05T10:00:00".toList, "2024-01-05T10:00:00".toList⟩

/-- The same sample entry as stored by the JSON backend. -/
def entryA : Entry :=
  ⟨"a".toList, "2024-01-05".toList, "T".toList, "B".toList, "calm".toList,
   ["x".toList, "y".toList], "2024-01-05T10:00:00".toList, "2024-01-05T10:00:00".toList⟩

/-! ### Claims -/

/-- C6: `delete_entry` on an existing id removes it (a subsequent
`get_entry` is `none`) and returns true; on a non-existent id it returns
false and leaves the store unchanged, in both backends. -/
theorem c6_delete_semantics (rows : List Row) (st : List Entry) (i : Str) :
    ((rows.any (fun r => r.id == i) = true →
        (SQLiteStorage.delete_entry i rows).1 = true ∧
        SQLiteStorage.get_entry i (SQLiteStorage.delete_entry i rows).2 = none) ∧
     (rows.any (fun r => r.id == i) = false →
        SQLiteStorage.delete_entry i rows = (false, rows))) ∧
    ((st.any (fun e => e.id == i) = true →
        (JSONStorage.delete_entry i st).1 = true ∧
        JSONStorage.get_entry i (JSONStorage.delete_entry i st).2 = none) ∧
     (st.any (fun e => e.id == i) = false →
        JSONStorage.delete_entry i st = (false, st))) := by
  constructor
  · constructor
    · intro h
      refine ⟨h, ?_⟩
      simp only [SQLiteStorage.delete_entry, SQLiteStorage.get_entry]
      rw [find?_filter_not]
      rfl
    · intro h
      have hall : ∀ r ∈ rows, (r.id == i) = false := by
        intro r hr
        have := List.any_eq_false.mp h r hr
        cases hb : (r.id == i)
        · rfl
        · exact absurd hb this
      simp only [SQLiteStorage.delete_entry, h]
      rw [List.filter_eq_self.mpr (fun a ha => by simp [hall a ha])]
  · constructor
    · intro h
      obtain ⟨e, he, hei⟩ := List.any_eq_true.mp h
      have hlt : ((st.filter (fun e => !(e.id == i))).length < st.length) := by
        clear h
        induction st with
        | nil => cases he
        | cons x xs ih =>
          rcases List.mem_cons.mp he with rfl | hx
          · simp only [List.filter, hei, Bool.not_true]
            have := List.length_filter_le (fun e => !(e.id == i)) xs
            simp only [List.length_cons]
            omega
          · by_cases hxid : (x.id == i) = true
            · simp only [List.filter, hxid, Bool.not_true]
              have := List.length_filter_le (fun e => !(e.id == i)) xs
              simp only [List.length_cons]
              omega
            · have hxid' : (x.id == i) = false := by
                cases hb : (x.id == i)
                · rfl
                · exact absurd hb hxid
              simp only [List.filter, hxid', Bool.not_false, List.length_cons]
              have := ih hx
              omega
      have hne : ((st.filter (fun e => !(e.id == i))).length == st.length) = false := by
        simp only [beq_eq_false_iff_ne, ne_eq]
        omega
      constructor
      · simp [JSONStorage.delete_entry, hne]
      · simp only [JSONStorage.delete_entry, hne, Bool.false_eq_true, if_false,
          JSONStorage.get_entry]
        exact find?_filter_not st
    · intro h
      have hall : ∀ e ∈ st, (e.id == i) = false := by
        intro e he
        have := List.any_eq_false.mp h e he
        cases hb : (e.id == i)
        · rfl
        · exact absurd hb this
      have hself : st.filter (fun e => !(e.id == i)) = st :=
        List.filter_eq_self.mpr (fun a ha => by simp [hall a ha])
      simp [JSONStorage.delete_entry, hself]

theorem c6_delete_semantics_witness :
    ((SQLiteStorage.delete_entry "a".toList [rowA]).1 = true ∧
     SQLiteStorage.get_entry "a".toList (SQLiteStorage.delete_entry "a".toList [rowA]).2 = none) ∧
    JSONStorage.delete_entry "b".toList [entryA] = (false, [entryA]) := by
  refine ⟨(c6_delete_semantics [rowA] [entryA] "a".toList).1.1 ?_,
          (c6_delete_semantics [rowA] [entryA] "b".toList).2.2 ?_⟩
  · decide
  · decide

/-- C9: in the JSON backend, `search_entries` sorts by date descending
with a stable sort and no secondary key: restricted to any one date, the
result is exactly the matching entries in stored (load) order. -/
theorem c9_json_search_stable (st : List Entry) (kw d : Str) :
    (JSONStorage.search_entries kw st).filter (fun e => e.date == d)
      = (st.filter (JSONStorage.entryMatch kw)).filter (fun e => e.date == d) := by
  unfold JSONStorage.search_entries
  exact stSort_filter_key Entry.date d (fun a b => rfl)
    (st.filter (JSONStorage.entryMatch kw))

/-- C10: when the draft carries an `"id"` key, `add_entry` in both
backends returns the caller-supplied id verbatim and appends the entry
stored under that id; the generated fresh id is used only when the draft
has no `"id"` key. -/
theorem c10_caller_id (rows : List Row) (st : List Entry) (dr : Draft)
    (fid now d : Str) (hd : dr.date = some d)
    (hfresh : rows.any (fun r => r.id == dr.id.getD fid) = false) :
    (∀ i, dr.id = some i →
       (∃ r2, SQLiteStorage.add_entry fid now dr rows = .ok (i, rows ++ [r2]) ∧
          r2.id = i) ∧
       (∃ e2, JSONStorage.add_entry fid now dr st = .ok (i, st ++ [e2]) ∧
          e2.id = i)) ∧
    (dr.id = none →
       (∃ r2, SQLiteStorage.add_entry fid now dr rows = .ok (fid, rows ++ [r2]) ∧
          r2.id = fid) ∧
       (∃ e2, JSONStorage.add_entry fid now dr st = .ok (fid, st ++ [e2]) ∧
          e2.id = fid)) := by
  have hfresh' : ∀ x ∈ rows, ¬x.id = dr.id.getD fid := by
    intro x hx
    have := List.any_eq_false.mp hfresh x hx
    simpa using this
  constructor
  · intro i hi
    rw [hi] at hfresh'
    simp only [Option.getD_some] at hfresh'
    constructor
    · refine ⟨⟨i, d, dr.title.getD [], dr.body.getD [], dr.mood.getD [],
        joinTags (dr.tags.getD []), now, now⟩, ?_, rfl⟩
      simp [SQLiteStorage.add_entry, hd, hi]
      exact hfresh'
    · refine ⟨⟨i, d, dr.title.getD [], dr.body.getD [], dr.mood.getD [],
        dr.tags.getD [], now, now⟩, ?_, rfl⟩
      simp [JSONStorage.add_entry, hd, hi]
  · intro hi
    rw [hi] at hfresh'
    simp only [Option.getD_none] at hfresh'
    constructor
    · refine ⟨⟨fid, d, dr.title.getD [], dr.body.getD [], dr.mood.getD [],
        joinTags (dr.tags.getD []), now, now⟩, ?_, rfl⟩
      simp [SQLiteStorage.add_entry, hd, hi]
      exact hfresh'
    · refine ⟨⟨fid, d, dr.title.getD [], dr.body.getD [], dr.mood.getD [],
        dr.tags.getD [], now, now⟩, ?_, rfl⟩
      simp [JSONStorage.add_entry, hd, hi]

theorem c10_caller_id_witness :
    (∃ r2, SQLiteStorage.add_entry "f".toList "2024-01-06T09:00:00".toList
        ⟨some "mine".toList, some "2024-01-06".toList, none, none, none, none⟩ [rowA]
      = .ok ("mine".toList, [rowA] ++ [r2]) ∧ r2.id = "mine".toList) ∧
    (∃ e2, JSONStorage.add_entry "f".toList "2024-01-06T09:00:00".toList
        ⟨some "mine".toList, some "2024-01-06".toList, none, none, none, none⟩ [entryA]
      = .ok ("mine".toList, [entryA] ++ [e2]) ∧ e2.id = "mine".toList) := by
  exact (c10_caller_id [rowA] [entryA]
    ⟨some "mine".toList, some "2024-01-06".toList, none, none, none, none⟩
    "f".toList "2024-01-06T09:00:00".toList "2024-01-06".toList rfl (by decide)).1
    "mine".toList rfl

/-- A second sample entry: same date as `entryA`, created later. -/
def entryB : Entry :=
  ⟨"b".toList, "2024-01-05".toList, "U".toList, "C".toList, "glad".toList,
   [], "2024-01-05T11:00:00".toList, "2024-01-05T11:00:00".toList⟩

/-- C2 counterexample: the JSON backend returns date-matching entries in
stored order, not newest `created_at` first — here the strictly older
entry comes first. -/
theorem c2_counterexample :
    JSONStorage.get_entries_by_date "2024-01-05".toList [entryA, entryB]
      = [entryA, entryB] ∧
    strLt entryA.created_at entryB.created_at = true := by
  constructor
  · decide
  · decide

/-- C2 amended: both backends return exactly the entries whose `date`
equals the argument, and the empty list (not an error) when none match;
the SQLite backend orders them by `created_at` descending, while the
JSON backend returns them in stored (load) order without sorting. -/
theorem c2_get_by_date (rows : List Row) (st : List Entry) (d : Str) :
    List.Perm (SQLiteStorage.get_entries_by_date d rows)
      ((rows.filter (fun r => r.date == d)).map SQLiteStorage.row_to_entry) ∧
    (SQLiteStorage.get_entries_by_date d rows).Pairwise
      (fun a b => strLe b.created_at a.created_at = true) ∧
    (∀ e ∈ SQLiteStorage.get_entries_by_date d rows, e.date = d) ∧
    ((∀ r ∈ rows, r.date ≠ d) → SQLiteStorage.get_entries_by_date d rows = []) ∧
    (∀ e, e ∈ JSONStorage.get_entries_by_date d st ↔ e ∈ st ∧ e.date = d) ∧
    List.Sublist (JSONStorage.get_entries_by_date d st) st ∧
    ((∀ e ∈ st, e.date ≠ d) → JSONStorage.get_entries_by_date d st = []) := by
  refine ⟨?_, ?_, ?_, ?_, ?_, ?_, ?_⟩
  · exact (stSort_perm leCreatedR (rows.filter (fun r => r.date == d))).map
      SQLiteStorage.row_to_entry
  · have hp := stSort_pairwise leCreatedR_total leCreatedR_trans
      (rows.filter (fun r => r.date == d))
    exact hp.map SQLiteStorage.row_to_entry (fun a b h => h)
  · intro e he
    obtain ⟨r, hr, rfl⟩ := List.mem_map.mp he
    have hr' : r ∈ rows.filter (fun r => r.date == d) := mem_stSort.mp hr
    have := (List.mem_filter.mp hr').2
    exact eq_of_beq this
  · intro h
    have hnil : rows.filter (fun r => r.date == d) = [] :=
      List.filter_eq_nil_iff.mpr (fun r hr => by simp [h r hr])
    simp [SQLiteStorage.get_entries_by_date, hnil, stSort]
  · intro e
    constructor
    · intro he
      have := List.mem_filter.mp he
      exact ⟨this.1, eq_of_beq this.2⟩
    · intro ⟨he, hd⟩
      exact List.mem_filter.mpr ⟨he, by simp [hd]⟩
  · exact List.filter_sublist st
  · intro h
    exact List.filter_eq_nil_iff.mpr (fun e he => by simp [h e he])

theorem c2_get_by_date_witness :
    SQLiteStorage.get_entries_by_date "1999-01-01".toList [rowA] = [] ∧
    JSONStorage.get_entries_by_date "1999-01-01".toList [entryA] = [] := by
  constructor
  · exact (c2_get_by_date [rowA] [entryA] "1999-01-01".toList).2.2.2.1 (by decide)
  · exact (c2_get_by_date [rowA] [entryA] "1999-01-01".toList).2.2.2.2.2.2 (by decide)

/-- C3 counterexample: with a stored tag list `["x","y"]` (encoded
`"x,y"`), the SQLite backend's `LIKE` over the comma-joined tags column
makes `search_entries "x,y"` return the entry, although `"x,y"` is not a
substring of its title, its body, or any individual tag. -/
theorem c3_counterexample :
    SQLiteStorage.search_entries "x,y".toList [rowA]
      = [SQLiteStorage.row_to_entry rowA] ∧
    JSONStorage.entryMatch "x,y".toList (SQLiteStorage.row_to_entry rowA) = false := by
  constructor
  · decide
  · decide

/-- C3 amended: the JSON backend returns exactly the entries where the
keyword is a case-insensitive substring of the title, the body, or some
individual tag; the SQLite backend returns exactly the rows whose title,
body, or **comma-joined tags string** matches `LIKE %kw%` (so `%`/`_` in
the keyword act as wildcards and a keyword can straddle two tags).  Both
order by date descending and return the empty list when nothing
matches. -/
theorem c3_search (rows : List Row) (st : List Entry) (kw : Str) (_hk : kw ≠ []) :
    List.Perm (JSONStorage.search_entries kw st) (st.filter (JSONStorage.entryMatch kw)) ∧
    (∀ e, e ∈ JSONStorage.search_entries kw st ↔
       e ∈ st ∧ JSONStorage.entryMatch kw e = true) ∧
    (JSONStorage.search_entries kw st).Pairwise
      (fun a b => strLe b.date a.date = true) ∧
    ((∀ e ∈ st, JSONStorage.entryMatch kw e = false) →
       JSONStorage.search_entries kw st = []) ∧
    List.Perm (SQLiteStorage.search_entries kw rows)
      ((rows.filter (SQLiteStorage.rowLike kw)).map SQLiteStorage.row_to_entry) ∧
    (∀ e, e ∈ SQLiteStorage.search_entries kw rows ↔
       ∃ r ∈ rows, SQLiteStorage.rowLike kw r = true ∧
         SQLiteStorage.row_to_entry r = e) ∧
    (SQLiteStorage.search_entries kw rows).Pairwise
      (fun a b => strLe b.date a.date = true) ∧
    ((∀ r ∈ rows, SQLiteStorage.rowLike kw r = false) →
       SQLiteStorage.search_entries kw rows = []) := by
  refine ⟨?_, ?_, ?_, ?_, ?_, ?_, ?_, ?_⟩
  · exact stSort_perm leDateE (st.filter (JSONStorage.entryMatch kw))
  · intro e
    rw [JSONStorage.search_entries, mem_stSort, List.mem_filter]
  · exact stSort_pairwise leDateE_total leDateE_trans _
  · intro h
    have hnil : st.filter (JSONStorage.entryMatch kw) = [] :=
      List.filter_eq_nil_iff.mpr (fun e he => by simp [h e he])
    simp [JSONStorage.search_entries, hnil, stSort]
  · exact (stSort_perm leDateR (rows.filter (SQLiteStorage.rowLike kw))).map
      SQLiteStorage.row_to_entry
  · intro e
    rw [SQLiteStorage.search_entries]
    constructor
    · intro he
      obtain ⟨r, hr, rfl⟩ := List.mem_map.mp he
      have hr' := List.mem_filter.mp (mem_stSort.mp hr)
      exact ⟨r, hr'.1, hr'.2, rfl⟩
    · rintro ⟨r, hr, hlike, rfl⟩
      exact List.mem_map.mpr ⟨r, mem_stSort.mpr (List.mem_filter.mpr ⟨hr, hlike⟩), rfl⟩
  · have hp := stSort_pairwise leDateR_total leDateR_trans
      (rows.filter (SQLiteStorage.rowLike kw))
    exact hp.map SQLiteStorage.row_to_entry (fun a b h => h)
  · intro h
    have hnil : rows.filter (SQLiteStorage.rowLike kw) = [] :=
      List.filter_eq_nil_iff.mpr (fun r hr => by simp [h r hr])
    simp [SQLiteStorage.search_entries, hnil, stSort]

theorem c3_search_witness :
    JSONStorage.search_entries "zz".toList [entryA] = [] ∧
    SQLiteStorage.search_entries "zz".toList [rowA] = [] := by
  constructor
  · exact (c3_search [rowA] [entryA] "zz".toList (by decide)).2.2.2.1 (by decide)
  · exact (c3_search [rowA] [entryA] "zz".toList (by decide)).2.2.2.2.2.2.2 (by decide)

/-- Decoding the comma-joined encoding recovers a tag list whose tags are
all non-empty and comma-free. -/
theorem decode_joinTags (ts : List Str) (h : ts.all goodTag = true) :
    (if (joinTags ts).isEmpty then [] else splitC (joinTags ts)) = ts := by
  cases ts with
  | nil => simp [joinTags]
  | cons t us =>
    simp only [List.all_cons, Bool.and_eq_true] at h
    have hne : joinTags (t :: us) ≠ [] := joinTags_ne_nil h.1 us
    have hemp : (joinTags (t :: us)).isEmpty = false := by
      cases hj : joinTags (t :: us) with
      | nil => exact absurd hj hne
      | cons a b => rfl
    rw [hemp]
    simp only [Bool.false_eq_true, if_false]
    exact splitC_joinTags (t :: us) (by simp [h.1, h.2]) (by simp)

/-- A draft whose tag list does not survive the SQLite encoding. -/
def drComma : Draft :=
  ⟨none, some "2024-01-06".toList, none, none, none, some ["a,b".toList]⟩

/-- C4 counterexample: adding a valid draft with the single tag `"a,b"`
to an empty SQLite store and reading it back yields the tags
`["a", "b"]`, not the draft's tag list. -/
theorem c4_counterexample :
    (SQLiteStorage.add_entry "f1".toList "2024-01-06T09:00:00".toList drComma []).map
      (fun p => (SQLiteStorage.get_entry p.1 p.2).map Entry.tags)
      = .ok (some ["a".toList, "b".toList]) ∧
    drComma.tags = some ["a,b".toList] ∧
    ["a".toList, "b".toList] ≠ ["a,b".toList] := by
  refine ⟨by decide, rfl, by decide⟩

/-- C4 amended: for a valid draft (date present, no id key, fresh
generated id), `get_entry (add_entry D)` returns an entry whose `date`,
`title`, `body`, `mood` and `tags` equal the draft's (with empty
defaults), with `created_at = updated_at = now` — unconditionally in the
JSON backend, and in the SQLite backend provided every tag is non-empty
and comma-free. -/
theorem c4_round_trip (rows : List Row) (st : List Entry) (dr : Draft)
    (fid now d : Str) (hd : dr.date = some d) (hid : dr.id = none)
    (hfreshR : ∀ r ∈ rows, (r.id == fid) = false)
    (hfreshE : ∀ e ∈ st, (e.id == fid) = false) :
    (∃ st2, JSONStorage.add_entry fid now dr st = .ok (fid, st2) ∧
       JSONStorage.get_entry fid st2 =
         some ⟨fid, d, dr.title.getD [], dr.body.getD [], dr.mood.getD [],
               dr.tags.getD [], now, now⟩) ∧
    (goodTags dr = true →
       ∃ rows2, SQLiteStorage.add_entry fid now dr rows = .ok (fid, rows2) ∧
         SQLiteStorage.get_entry fid rows2 =
           some ⟨fid, d, dr.title.getD [], dr.body.getD [], dr.mood.getD [],
                 dr.tags.getD [], now, now⟩) := by
  constructor
  · refine ⟨st ++ [⟨fid, d, dr.title.getD [], dr.body.getD [], dr.mood.getD [],
      dr.tags.getD [], now, now⟩], ?_, ?_⟩
    · simp [JSONStorage.add_entry, hd, hid]
    · unfold JSONStorage.get_entry
      rw [find?_append_last hfreshE (by simp)]
  · intro hgood
    have hany : rows.any (fun r => r.id == dr.id.getD fid) = false := by
      rw [hid]
      exact List.any_eq_false.mpr (fun r hr => by simp [hfreshR r hr])
    refine ⟨rows ++ [⟨fid, d, dr.title.getD [], dr.body.getD [], dr.mood.getD [],
      joinTags (dr.tags.getD []), now, now⟩], ?_, ?_⟩
    · simp only [SQLiteStorage.add_entry, hd, hid, Option.getD_none] at hany ⊢
      rw [hany]
      rfl
    · unfold SQLiteStorage.get_entry
      rw [find?_append_last hfreshR (by simp)]
      simp only [Option.map_some', SQLiteStorage.row_to_entry]
      rw [decode_joinTags (dr.tags.getD []) hgood]

/-- A well-behaved draft used by the witnesses. -/
def drGood : Draft :=
  ⟨none, some "2024-01-06".toList, some "T".toList, none, none, some ["w".toList]⟩

theorem c4_round_trip_witness :
    (∃ st2, JSONStorage.add_entry "f".toList "2024-01-06T09:00:00".toList drGood []
        = .ok ("f".toList, st2) ∧
       JSONStorage.get_entry "f".toList st2 =
         some ⟨"f".toList, "2024-01-06".toList, "T".toList, [], [],
               ["w".toList], "2024-01-06T09:00:00".toList, "2024-01-06T09:00:00".toList⟩) ∧
    (∃ rows2, SQLiteStorage.add_entry "f".toList "2024-01-06T09:00:00".toList drGood []
        = .ok ("f".toList, rows2) ∧
       SQLiteStorage.get_entry "f".toList rows2 =
         some ⟨"f".toList, "2024-01-06".toList, "T".toList, [], [],
               ["w".toList], "2024-01-06T09:00:00".toList, "2024-01-06T09:00:00".toList⟩) := by
  have h := c4_round_trip [] [] drGood "f".toList "2024-01-06T09:00:00".toList
    "2024-01-06".toList rfl rfl (by simp) (by simp)
  exact ⟨h.1, h.2 (by decide)⟩

/-- C7 counterexample: a draft containing a `date` (and a caller-supplied
id equal to an existing id) makes the SQLite `add_entry` fail with a
primary-key conflict, so `add` does not succeed on every draft that
contains a date field. -/
theorem c7_counterexample :
    SQLiteStorage.add_entry "f".toList "2024-01-06T09:00:00".toList
      ⟨some "a".toList, some "2024-01-06".toList, none, none, none, none⟩ [rowA]
      = .error .idConflict := by
  decide

/-- C7 amended: with a `date` present, `add_entry` succeeds in the JSON
backend always, and in the SQLite backend whenever the id it uses (the
caller's, else the generated one) is not already stored — a collision is
an `idConflict` error; with `date` missing, both backends fail with the
InvalidInput error (`KeyError`). -/
theorem c7_add_failure_modes (rows : List Row) (st : List Entry) (dr : Draft)
    (fid now : Str) :
    (∀ d, dr.date = some d →
       (rows.any (fun r => r.id == dr.id.getD fid) = false →
          (SQLiteStorage.add_entry fid now dr rows).isOk = true) ∧
       (JSONStorage.add_entry fid now dr st).isOk = true) ∧
    (dr.date = none →
       SQLiteStorage.add_entry fid now dr rows = .error .invalidInput ∧
       JSONStorage.add_entry fid now dr st = .error .invalidInput) ∧
    (∀ d, dr.date = some d →
       rows.any (fun r => r.id == dr.id.getD fid) = true →
       SQLiteStorage.add_entry fid now dr rows = .error .idConflict) := by
  refine ⟨?_, ?_, ?_⟩
  · intro d hd
    constructor
    · intro hany
      simp only [SQLiteStorage.add_entry, hd]
      rw [hany]
      rfl
    · simp [JSONStorage.add_entry, hd, Except.isOk, Except.toBool]
  · intro hd
    exact ⟨by simp [SQLiteStorage.add_entry, hd], by simp [JSONStorage.add_entry, hd]⟩
  · intro d hd hany
    simp only [SQLiteStorage.add_entry, hd]
    rw [hany]
    rfl

theorem c7_add_failure_modes_witness :
    SQLiteStorage.add_entry "f".toList "2024-01-06T09:00:00".toList
      ⟨none, none, some "T".toList, none, none, none⟩ [rowA] = .error .invalidInput ∧
    JSONStorage.add_entry "f".toList "2024-01-06T09:00:00".toList
      ⟨none, none, some "T".toList, none, none, none⟩ [entryA] = .error .invalidInput := by
  exact (c7_add_failure_modes [rowA] [entryA]
    ⟨none, none, some "T".toList, none, none, none⟩
    "f".toList "2024-01-06T09:00:00".toList).2.1 rfl

/-- `JSONStorage.update_entry` on an id that is not stored: `False`, no
write, no error — even when the draft has no `date` (the `KeyError`
would only fire on a found entry). -/
theorem json_update_not_found (now i : Str) (upd : Draft) (st : List Entry)
    (h : st.find? (fun e => e.id == i) = none) :
    JSONStorage.update_entry now i upd st = .ok (false, st) := by
  induction st with
  | nil => rfl
  | cons e es ih =>
    have hall := List.find?_eq_none.mp h
    have he : ¬((e.id == i) = true) := hall e (List.mem_cons_self e es)
    have hes : es.find? (fun e => e.id == i) = none :=
      List.find?_eq_none.mpr (fun x hx => hall x (List.mem_cons_of_mem e hx))
    simp only [JSONStorage.update_entry, if_neg he, ih hes]

/-- `JSONStorage.update_entry` on a stored id rewrites exactly the first
matching entry. -/
theorem json_update_found (now i d : Str) (upd : Draft) (hd : upd.date = some d) :
    ∀ (st : List Entry) (e : Entry), st.find? (fun x => x.id == i) = some e →
      ∃ st2, JSONStorage.update_entry now i upd st = .ok (true, st2) ∧
        st2.length = st.length ∧
        JSONStorage.get_entry i st2 = some (JSONStorage.updEntry now d upd e) := by
  intro st
  induction st with
  | nil => intro e he; simp at he
  | cons x xs ih =>
    intro e he
    by_cases hx : (x.id == i) = true
    · rw [@List.find?_cons_of_pos Entry (fun y => y.id == i) x xs hx] at he
      obtain rfl : x = e := by injection he
      refine ⟨JSONStorage.updEntry now d upd x :: xs, ?_, by simp, ?_⟩
      · simp only [JSONStorage.update_entry, if_pos hx, hd]
      · have hid : ((JSONStorage.updEntry now d upd x).id == i) = true := hx
        unfold JSONStorage.get_entry
        rw [@List.find?_cons_of_pos Entry (fun y => y.id == i) _ xs hid]
    · rw [@List.find?_cons_of_neg Entry (fun y => y.id == i) x xs hx] at he
      obtain ⟨st2, h1, h2, h3⟩ := ih e he
      refine ⟨x :: st2, ?_, by simp [h2], ?_⟩
      · simp only [JSONStorage.update_entry, if_neg hx, h1]
      · unfold JSONStorage.get_entry at h3 ⊢
        rw [@List.find?_cons_of_neg Entry (fun y => y.id == i) x st2 hx]
        exact h3

/-- C5 counterexample: updating the existing SQLite entry with the
single tag `"a,b"` and reading it back yields tags `["a","b"]`, so the
update does not set `tags` to F's value. -/
theorem c5_counterexample :
    (SQLiteStorage.update_entry "2024-01-07T08:00:00".toList "a".toList
        ⟨none, some "2024-01-07".toList, none, none, none, some ["a,b".toList]⟩
        [rowA]).map
      (fun p => (SQLiteStorage.get_entry "a".toList p.2).map Entry.tags)
      = .ok (some ["a".toList, "b".toList]) ∧
    ["a".toList, "b".toList] ≠ ["a,b".toList] := by
  refine ⟨by decide, by decide⟩

/-- C5 amended: with F's `date` present, `update_entry` on a stored id
returns true and rewrites the entry: `date/title/body/mood` (and in the
JSON backend `tags`) take F's values, `id` and `created_at` are
unchanged, `updated_at` becomes `now` (hence `>=` the previous value for
a non-decreasing clock), and the entry count is unchanged; in the SQLite
backend `tags` equals F's value provided every tag is non-empty and
comma-free.  On a non-existent id both backends return false with the
state unchanged and no error. -/
theorem c5_update_semantics (rows : List Row) (st : List Entry) (i now : Str)
    (upd : Draft) (d : Str) (hd : upd.date = some d) :
    (∀ e, SQLiteStorage.get_entry i rows = some e →
       ∃ rows2, SQLiteStorage.update_entry now i upd rows = .ok (true, rows2) ∧
         rows2.length = rows.length ∧
         ∃ e2, SQLiteStorage.get_entry i rows2 = some e2 ∧
           e2.id = e.id ∧ e2.created_at = e.created_at ∧
           e2.date = d ∧ e2.title = upd.title.getD [] ∧
           e2.body = upd.body.getD [] ∧ e2.mood = upd.mood.getD [] ∧
           e2.updated_at = now ∧
           (goodTags upd = true → e2.tags = upd.tags.getD []) ∧
           (strLe e.updated_at now = true → strLe e.updated_at e2.updated_at = true)) ∧
    (SQLiteStorage.get_entry i rows = none →
       SQLiteStorage.update_entry now i upd rows = .ok (false, rows)) ∧
    (∀ e, JSONStorage.get_entry i st = some e →
       ∃ st2, JSONStorage.update_entry now i upd st = .ok (true, st2) ∧
         st2.length = st.length ∧
         ∃ e2, JSONStorage.get_entry i st2 = some e2 ∧
           e2.id = e.id ∧ e2.created_at = e.created_at ∧
           e2.date = d ∧ e2.title = upd.title.getD [] ∧
           e2.body = upd.body.getD [] ∧ e2.mood = upd.mood.getD [] ∧
           e2.tags = upd.tags.getD [] ∧ e2.updated_at = now ∧
           (strLe e.updated_at now = true → strLe e.updated_at e2.updated_at = true)) ∧
    (JSONStorage.get_entry i st = none →
       JSONStorage.update_entry now i upd st = .ok (false, st)) := by
  refine ⟨?_, ?_, ?_, ?_⟩
  · intro e he
    unfold SQLiteStorage.get_entry at he
    obtain ⟨r, hr, hre⟩ := Option.map_eq_some'.mp he
    have hpr : (r.id == i) = true := @List.find?_some Row (fun x => x.id == i) r rows hr
    have hmem : r ∈ rows := List.mem_of_find?_eq_some hr
    refine ⟨rows.map (fun x => if x.id == i then SQLiteStorage.updRow now d upd x else x),
      ?_, by simp, ?_⟩
    · simp only [SQLiteStorage.update_entry, hd]
      have : rows.any (fun x => x.id == i) = true := List.any_eq_true.mpr ⟨r, hmem, hpr⟩
      rw [this]
    · refine ⟨SQLiteStorage.row_to_entry (SQLiteStorage.updRow now d upd r), ?_,
        ?_, ?_, rfl, rfl, rfl, rfl, rfl, ?_, ?_⟩
      · unfold SQLiteStorage.get_entry
        rw [find?_map_upd rows i (SQLiteStorage.updRow now d upd) (fun _ => rfl), hr,
          Option.map_some', Option.map_some']
      · rw [← hre]; rfl
      · rw [← hre]; rfl
      · intro hgood
        simp only [SQLiteStorage.row_to_entry, SQLiteStorage.updRow]
        exact decode_joinTags (upd.tags.getD []) hgood
      · intro hm
        exact hm
  · intro he
    unfold SQLiteStorage.get_entry at he
    have hnone : rows.find? (fun r => r.id == i) = none := by
      cases hf : rows.find? (fun r => r.id == i) with
      | none => rfl
      | some r => rw [hf] at he; simp at he
    have hall := List.find?_eq_none.mp hnone
    have hany : rows.any (fun r => r.id == i) = false :=
      List.any_eq_false.mpr (fun r hrr => by
        have := hall r hrr
        cases hb : (r.id == i)
        · simp
        · exact absurd hb this)
    simp only [SQLiteStorage.update_entry, hd]
    rw [hany, map_upd_no_match rows i _ (fun r hrr => by
      have := hall r hrr
      cases hb : (r.id == i)
      · rfl
      · exact absurd hb this)]
  · intro e he
    obtain ⟨st2, h1, h2, h3⟩ := json_update_found now i d upd hd st e he
    refine ⟨st2, h1, h2, JSONStorage.updEntry now d upd e, h3,
      rfl, rfl, rfl, rfl, rfl, rfl, rfl, rfl, fun hm => hm⟩
  · intro he
    exact json_update_not_found now i upd st he

/-- The update fields used by the C5 witness. -/
def updGood : Draft :=
  ⟨none, some "2024-01-07".toList, some "T2".toList, none, some "sad".toList,
   some ["z".toList]⟩

theorem c5_update_semantics_witness :
    SQLiteStorage.update_entry "2024-01-07T08:00:00".toList "zz".toList updGood [rowA]
      = .ok (false, [rowA]) ∧
    JSONStorage.update_entry "2024-01-07T08:00:00".toList "zz".toList updGood [entryA]
      = .ok (false, [entryA]) ∧
    (SQLiteStorage.update_entry "2024-01-07T08:00:00".toList "a".toList updGood [rowA]).isOk
      = true ∧
    (JSONStorage.update_entry "2024-01-07T08:00:00".toList "a".toList updGood [entryA]).isOk
      = true := by
  have h := c5_update_semantics [rowA] [entryA] "a".toList
    "2024-01-07T08:00:00".toList updGood "2024-01-07".toList rfl
  have h' := c5_update_semantics [rowA] [entryA] "zz".toList
    "2024-01-07T08:00:00".toList updGood "2024-01-07".toList rfl
  refine ⟨h'.2.1 (by decide), h'.2.2.2 (by decide), ?_, ?_⟩
  · obtain ⟨rows2, h1, -⟩ := h.1 (SQLiteStorage.row_to_entry rowA) (by decide)
    rw [h1]; rfl
  · obtain ⟨st2, h1, -⟩ := h.2.2.1 entryA (by decide)
    rw [h1]; rfl

/-- Every entry of a successful `JSONStorage.update_entry` result is
either an original entry or the rewritten first match. -/
theorem json_update_mem (now i : Str) (upd : Draft) :
    ∀ (st st2 : List Entry) (b : Bool),
      JSONStorage.update_entry now i upd st = .ok (b, st2) →
      ∀ e2 ∈ st2, e2 ∈ st ∨
        ∃ d e, upd.date = some d ∧ e ∈ st ∧ e2 = JSONStorage.updEntry now d upd e := by
  intro st
  induction st with
  | nil =>
    intro st2 b h e2 he2
    simp only [JSONStorage.update_entry] at h
    injection h with h
    injection h with _ h
    subst h
    cases he2
  | cons x xs ih =>
    intro st2 b h e2 he2
    by_cases hx : (x.id == i) = true
    · rw [JSONStorage.update_entry, if_pos hx] at h
      cases hd : upd.date with
      | none => rw [hd] at h; cases h
      | some d =>
        rw [hd] at h
        injection h with h
        injection h with _ h
        subst h
        rcases List.mem_cons.mp he2 with rfl | he2
        · exact Or.inr ⟨d, x, rfl, List.mem_cons_self x xs, rfl⟩
        · exact Or.inl (List.mem_cons_of_mem x he2)
    · rw [JSONStorage.update_entry, if_neg hx] at h
      cases hrec : JSONStorage.update_entry now i upd xs with
      | error err => rw [hrec] at h; cases h
      | ok p =>
        rw [hrec] at h
        injection h with h
        injection h with _ h
        subst h
        rcases List.mem_cons.mp he2 with rfl | he2
        · exact Or.inl (List.mem_cons_self e2 xs)
        · rcases ih p.2 p.1 (by rw [hrec]) e2 he2 with h' | ⟨d, e, hd, hee, heq⟩
          · exact Or.inl (List.mem_cons_of_mem x h')
          · exact Or.inr ⟨d, e, hd, List.mem_cons_of_mem x hee, heq⟩

/-- With no `date` in the fields, `JSONStorage.update_entry` either
raises before writing (id found) or returns false (id absent): the state
is never changed. -/
theorem json_update_no_date (now i : Str) (upd : Draft) (hd : upd.date = none) :
    ∀ st : List Entry,
      JSONStorage.update_entry now i upd st = .error .invalidInput ∨
      JSONStorage.update_entry now i upd st = .ok (false, st) := by
  intro st
  induction st with
  | nil => exact Or.inr rfl
  | cons x xs ih =>
    by_cases hx : (x.id == i) = true
    · rw [JSONStorage.update_entry, if_pos hx, hd]
      exact Or.inl rfl
    · rw [JSONStorage.update_entry, if_neg hx]
      rcases ih with h | h
      · rw [h]; exact Or.inl rfl
      · rw [h]; exact Or.inr rfl

/-- Invariant propagation for the JSON backend: starting below clock
bound `t`, a trace with non-decreasing clock readings keeps every stored
entry with `created_at ≤ updated_at ≤` some final bound. -/
theorem json_replay_inv (ops : List Op) :
    ∀ (t : Str) (st : List Entry), monoFrom t ops = true →
      (∀ e ∈ st, strLe e.created_at e.updated_at = true ∧ strLe e.updated_at t = true) →
      ∃ t2, strLe t t2 = true ∧
        ∀ e ∈ jsonReplay ops st,
          strLe e.created_at e.updated_at = true ∧ strLe e.updated_at t2 = true := by
  induction ops with
  | nil =>
    intro t st _ hst
    exact ⟨t, strLe_refl t, hst⟩
  | cons op ops ih =>
    intro t st hmono hst
    cases op with
    | addOp fid n d =>
      simp only [monoFrom, opNow, Bool.and_eq_true] at hmono
      obtain ⟨htn, hmono⟩ := hmono
      have hlift : ∀ e ∈ jsonStep (.addOp fid n d) st,
          strLe e.created_at e.updated_at = true ∧ strLe e.updated_at n = true := by
        intro e he
        simp only [jsonStep] at he
        cases hdd : d.date with
        | none =>
          rw [JSONStorage.add_entry] at he
          rw [hdd] at he
          simp only at he
          obtain ⟨h1, h2⟩ := hst e he
          exact ⟨h1, strLe_trans h2 htn⟩
        | some dd =>
          rw [JSONStorage.add_entry] at he
          rw [hdd] at he
          simp only at he
          rcases List.mem_append.mp he with he | he
          · obtain ⟨h1, h2⟩ := hst e he
            exact ⟨h1, strLe_trans h2 htn⟩
          · rcases List.mem_singleton.mp he with rfl
            exact ⟨strLe_refl n, strLe_refl n⟩
      obtain ⟨t2, h1, h2⟩ := ih n (jsonStep (.addOp fid n d) st) hmono hlift
      exact ⟨t2, strLe_trans htn h1, h2⟩
    | updateOp i n d =>
      simp only [monoFrom, opNow, Bool.and_eq_true] at hmono
      obtain ⟨htn, hmono⟩ := hmono
      have hlift : ∀ e ∈ jsonStep (.updateOp i n d) st,
          strLe e.created_at e.updated_at = true ∧ strLe e.updated_at n = true := by
        intro e he
        simp only [jsonStep] at he
        cases hup : JSONStorage.update_entry n i d st with
        | error err =>
          rw [hup] at he
          obtain ⟨h1, h2⟩ := hst e he
          exact ⟨h1, strLe_trans h2 htn⟩
        | ok p =>
          rw [hup] at he
          rcases json_update_mem n i d st p.2 p.1 (by rw [hup]) e he with
            hmem | ⟨dd, e0, hdd, he0, rfl⟩
          · obtain ⟨h1, h2⟩ := hst e hmem
            exact ⟨h1, strLe_trans h2 htn⟩
          · obtain ⟨h1, h2⟩ := hst e0 he0
            refine ⟨?_, strLe_refl n⟩
            show strLe e0.created_at n = true
            exact strLe_trans h1 (strLe_trans h2 htn)
      obtain ⟨t2, h1, h2⟩ := ih n (jsonStep (.updateOp i n d) st) hmono hlift
      exact ⟨t2, strLe_trans htn h1, h2⟩
    | deleteOp i =>
      simp only [monoFrom, opNow] at hmono
      have hlift : ∀ e ∈ jsonStep (.deleteOp i) st,
          strLe e.created_at e.updated_at = true ∧ strLe e.updated_at t = true := by
        intro e he
        simp only [jsonStep, JSONStorage.delete_entry] at he
        by_cases hlen : ((st.filter (fun e => !(e.id == i))).length == st.length) = true
        · rw [if_pos hlen] at he
          exact hst e he
        · rw [if_neg hlen] at he
          exact hst e (List.mem_of_mem_filter he)
      exact ih t (jsonStep (.deleteOp i) st) hmono hlift

/-- Invariant propagation for the SQLite backend. -/
theorem sqlite_replay_inv (ops : List Op) :
    ∀ (t : Str) (rows : List Row), monoFrom t ops = true →
      (∀ r ∈ rows, strLe r.created_at r.updated_at = true ∧ strLe r.updated_at t = true) →
      ∃ t2, strLe t t2 = true ∧
        ∀ r ∈ sqliteReplay ops rows,
          strLe r.created_at r.updated_at = true ∧ strLe r.updated_at t2 = true := by
  induction ops with
  | nil =>
    intro t rows _ hst
    exact ⟨t, strLe_refl t, hst⟩
  | cons op ops ih =>
    intro t rows hmono hst
    cases op with
    | addOp fid n d =>
      simp only [monoFrom, opNow, Bool.and_eq_true] at hmono
      obtain ⟨htn, hmono⟩ := hmono
      have hlift : ∀ r ∈ sqliteStep (.addOp fid n d) rows,
          strLe r.created_at r.updated_at = true ∧ strLe r.updated_at n = true := by
        intro r hr
        simp only [sqliteStep] at hr
        cases hdd : d.date with
        | none =>
          rw [SQLiteStorage.add_entry] at hr
          rw [hdd] at hr
          simp only at hr
          obtain ⟨h1, h2⟩ := hst r hr
          exact ⟨h1, strLe_trans h2 htn⟩
        | some dd =>
          rw [SQLiteStorage.add_entry] at hr
          rw [hdd] at hr
          simp only at hr
          by_cases hany : rows.any (fun x => x.id == d.id.getD fid) = true
          · rw [if_pos hany] at hr
            obtain ⟨h1, h2⟩ := hst r hr
            exact ⟨h1, strLe_trans h2 htn⟩
          · rw [if_neg hany] at hr
            simp only at hr
            rcases List.mem_append.mp hr with hr | hr
            · obtain ⟨h1, h2⟩ := hst r hr
              exact ⟨h1, strLe_trans h2 htn⟩
            · rcases List.mem_singleton.mp hr with rfl
              exact ⟨strLe_refl n, strLe_refl n⟩
      obtain ⟨t2, h1, h2⟩ := ih n (sqliteStep (.addOp fid n d) rows) hmono hlift
      exact ⟨t2, strLe_trans htn h1, h2⟩
    | updateOp i n d =>
      simp only [monoFrom, opNow, Bool.and_eq_true] at hmono
      obtain ⟨htn, hmono⟩ := hmono
      have hlift : ∀ r ∈ sqliteStep (.updateOp i n d) rows,
          strLe r.created_at r.updated_at = true ∧ strLe r.updated_at n = true := by
        intro r hr
        simp only [sqliteStep] at hr
        cases hdd : d.date with
        | none =>
          rw [SQLiteStorage.update_entry] at hr
          rw [hdd] at hr
          simp only at hr
          obtain ⟨h1, h2⟩ := hst r hr
          exact ⟨h1, strLe_trans h2 htn⟩
        | some dd =>
          rw [SQLiteStorage.update_entry] at hr
          rw [hdd] at hr
          simp only at hr
          obtain ⟨r0, hr0, heq⟩ := List.mem_map.mp hr
          by_cases hid : (r0.id == i) = true
          · rw [if_pos hid] at heq
            subst heq
            obtain ⟨h1, h2⟩ := hst r0 hr0
            refine ⟨?_, strLe_refl n⟩
            show strLe r0.created_at n = true
            exact strLe_trans h1 (strLe_trans h2 htn)
          · rw [if_neg hid] at heq
            subst heq
            obtain ⟨h1, h2⟩ := hst r0 hr0
            exact ⟨h1, strLe_trans h2 htn⟩
      obtain ⟨t2, h1, h2⟩ := ih n (sqliteStep (.updateOp i n d) rows) hmono hlift
      exact ⟨t2, strLe_trans htn h1, h2⟩
    | deleteOp i =>
      simp only [monoFrom, opNow] at hmono
      have hlift : ∀ r ∈ sqliteStep (.deleteOp i) rows,
          strLe r.created_at r.updated_at = true ∧ strLe r.updated_at t = true := by
        intro r hr
        simp only [sqliteStep, SQLiteStorage.delete_entry] at hr
        exact hst r (List.mem_of_mem_filter hr)
      exact ih t (sqliteStep (.deleteOp i) rows) hmono hlift

/-- C8: starting from empty stores and replaying operations whose clock
readings are non-decreasing (as consecutive `datetime.utcnow()` calls
are), every stored entry of both backends satisfies
`created_at <= updated_at`. -/
theorem c8_created_le_updated (ops : List Op) (t : Str) (h : monoFrom t ops = true) :
    (∀ r ∈ sqliteReplay ops [], strLe r.created_at r.updated_at = true) ∧
    (∀ e ∈ jsonReplay ops [], strLe e.created_at e.updated_at = true) := by
  constructor
  · obtain ⟨t2, -, h2⟩ := sqlite_replay_inv ops t [] h (by intro r hr; cases hr)
    exact fun r hr => (h2 r hr).1
  · obtain ⟨t2, -, h2⟩ := json_replay_inv ops t [] h (by intro e he; cases he)
    exact fun e he => (h2 e he).1

/-- The SQLite row produced by the C8 witness trace. -/
def rowW : Row :=
  ⟨"w1".toList, "2024-01-07".toList, "T2".toList, [], "sad".toList, "z".toList,
   "2024-01-06T09:00:00".toList, "2024-01-07T08:00:00".toList⟩

theorem c8_created_le_updated_witness :
    strLe rowW.created_at rowW.updated_at = true :=
  (c8_created_le_updated
    [Op.addOp "w1".toList "2024-01-06T09:00:00".toList drGood,
     Op.updateOp "w1".toList "2024-01-07T08:00:00".toList updGood]
    "2024-01-01T00:00:00".toList (by decide)).1 rowW (by decide)

theorem map_filter_comm (f : α → β) (p : α → Bool) (q : β → Bool)
    (h : ∀ a, p a = q (f a)) (l : List α) :
    (l.filter p).map f = (l.map f).filter q := by
  induction l with
  | nil => rfl
  | cons a as ih =>
    by_cases hp : p a = true
    · have hq : q (f a) = true := by rw [← h a]; exact hp
      simp [List.filter, hp, hq, ih]
    · have hp' : p a = false := by
        cases hb : p a
        · rfl
        · exact absurd hb hp
      have hq : q (f a) = false := by rw [← h a]; exact hp'
      simp [List.filter, hp', hq, ih]

/-- On a state with pairwise-distinct ids, rewriting the first match is
the same as rewriting every match. -/
theorem json_update_map_of_nodup (now i dd : Str) (upd : Draft) (hd : upd.date = some dd) :
    ∀ st : List Entry, (st.map Entry.id).Nodup →
      JSONStorage.update_entry now i upd st
        = .ok (st.any (fun e => e.id == i),
               st.map (fun e => if e.id == i then JSONStorage.updEntry now dd upd e else e)) := by
  intro st
  induction st with
  | nil => intro _; rfl
  | cons x xs ih =>
    intro hnd
    rw [List.map_cons] at hnd
    obtain ⟨hx_not, hnd'⟩ := List.nodup_cons.mp hnd
    by_cases hx : (x.id == i) = true
    · have hxid : x.id = i := eq_of_beq hx
      have hxs : xs.map (fun e => if e.id == i then JSONStorage.updEntry now dd upd e else e)
          = xs := by
        refine map_updE_no_match xs i _ ?_
        intro e he
        cases hb : (e.id == i)
        · rfl
        · exfalso
          have : e.id = x.id := by rw [hxid]; exact eq_of_beq hb
          exact hx_not (this ▸ List.mem_map_of_mem Entry.id he)
      rw [JSONStorage.update_entry, if_pos hx, hd]
      simp only [List.any_cons, hx, Bool.true_or, List.map_cons, if_pos hx, hxs]
      rfl
    · have hx' : (x.id == i) = false := by
        cases hb : (x.id == i)
        · rfl
        · exact absurd hb hx
      rw [JSONStorage.update_entry, if_neg hx, ih hnd']
      simp only [List.any_cons, hx', Bool.false_or, List.map_cons, if_neg hx]
      rfl

/-- One operation preserves the simulation between the SQLite table and
the JSON entries list, together with id uniqueness. -/
theorem step_sim (op : Op) (rows : List Row) (st : List Entry)
    (hsim : rows.map SQLiteStorage.row_to_entry = st)
    (hnd : (st.map Entry.id).Nodup)
    (hok : okStep op st = true) :
    (sqliteStep op rows).map SQLiteStorage.row_to_entry = jsonStep op st ∧
    ((jsonStep op st).map Entry.id).Nodup := by
  cases op with
  | addOp fid n d =>
    simp only [okStep, Bool.and_eq_true] at hok
    obtain ⟨hgood, hfresh⟩ := hok
    cases hdd : d.date with
    | none =>
      simp only [sqliteStep, jsonStep, SQLiteStorage.add_entry, JSONStorage.add_entry, hdd]
      exact ⟨hsim, hnd⟩
    | some dd =>
      have hallE : ∀ e ∈ st, (e.id == d.id.getD fid) = false := by
        intro e he
        have h1 := List.all_eq_true.mp hfresh e he
        cases hb : (e.id == d.id.getD fid)
        · rfl
        · rw [hb] at h1; exact absurd h1 (by simp)
      have hanyR : rows.any (fun r => r.id == d.id.getD fid) = false := by
        refine List.any_eq_false.mpr ?_
        intro r hr
        have hmem : SQLiteStorage.row_to_entry r ∈ st := by
          rw [← hsim]; exact List.mem_map_of_mem _ hr
        have h2 : (r.id == d.id.getD fid) = false := hallE _ hmem
        simp [h2]
      simp only [sqliteStep, jsonStep, SQLiteStorage.add_entry, JSONStorage.add_entry, hdd]
      rw [hanyR]
      simp only [Bool.false_eq_true, if_false]
      constructor
      · rw [List.map_append, hsim]
        simp only [List.map_cons, List.map_nil]
        rw [show SQLiteStorage.row_to_entry
            ⟨d.id.getD fid, dd, d.title.getD [], d.body.getD [], d.mood.getD [],
             joinTags (d.tags.getD []), n, n⟩
          = ⟨d.id.getD fid, dd, d.title.getD [], d.body.getD [], d.mood.getD [],
             d.tags.getD [], n, n⟩ from ?_]
        unfold SQLiteStorage.row_to_entry
        simp only
        rw [decode_joinTags (d.tags.getD []) hgood]
      · rw [List.map_append]
        refine List.nodup_append.mpr ⟨hnd, by simp, ?_⟩
        intro a ha hb
        simp only [List.map_cons, List.map_nil, List.mem_singleton] at hb
        subst hb
        obtain ⟨e, he, heq⟩ := List.mem_map.mp ha
        have := hallE e he
        rw [heq] at this
        simp at this
  | updateOp i n d =>
    simp only [okStep] at hok
    cases hdd : d.date with
    | none =>
      have hj := json_update_no_date n i d hdd st
      simp only [sqliteStep, jsonStep, SQLiteStorage.update_entry, hdd]
      rcases hj with h | h
      · rw [h]; exact ⟨hsim, hnd⟩
      · rw [h]; exact ⟨hsim, hnd⟩
    | some dd =>
      have hmap := json_update_map_of_nodup n i dd d hdd st hnd
      simp only [sqliteStep, jsonStep, SQLiteStorage.update_entry, hdd, hmap]
      have hcomm : ∀ r : Row,
          SQLiteStorage.row_to_entry
            (if r.id == i then SQLiteStorage.updRow n dd d r else r)
          = (fun e => if e.id == i then JSONStorage.updEntry n dd d e else e)
              (SQLiteStorage.row_to_entry r) := by
        intro r
        by_cases hid : (r.id == i) = true
        · rw [if_pos hid]
          have hid' : ((SQLiteStorage.row_to_entry r).id == i) = true := hid
          simp only [hid', if_pos]
          unfold SQLiteStorage.row_to_entry SQLiteStorage.updRow JSONStorage.updEntry
          simp only
          rw [decode_joinTags (d.tags.getD []) hok]
        · rw [if_neg hid]
          have hid' : ¬(((SQLiteStorage.row_to_entry r).id == i) = true) := hid
          simp only [if_neg hid']
      have hidpres : ∀ e : Entry,
          ((if e.id == i then JSONStorage.updEntry n dd d e else e)).id = e.id := by
        intro e
        by_cases hid : (e.id == i) = true
        · rw [if_pos hid]; rfl
        · rw [if_neg hid]
      constructor
      · rw [List.map_map, ← hsim, List.map_map]
        exact List.map_congr_left (fun r _ => hcomm r)
      · rw [List.map_map]
        have : st.map (Entry.id ∘ fun e =>
            if e.id == i then JSONStorage.updEntry n dd d e else e)
            = st.map Entry.id :=
          List.map_congr_left (fun e _ => hidpres e)
        rw [this]
        exact hnd
  | deleteOp i =>
    simp only [sqliteStep, jsonStep, SQLiteStorage.delete_entry, JSONStorage.delete_entry]
    have hcomm := map_filter_comm SQLiteStorage.row_to_entry
      (fun r => !(r.id == i)) (fun e => !(e.id == i)) (fun r => rfl) rows
    by_cases hlen : ((st.filter (fun e => !(e.id == i))).length == st.length) = true
    · rw [if_pos hlen]
      have hfe : st.filter (fun e => !(e.id == i)) = st :=
        filter_eq_self_of_length _ (eq_of_beq hlen)
      constructor
      · rw [hcomm, hsim, hfe]
      · exact hnd
    · rw [if_neg hlen]
      constructor
      · rw [hcomm, hsim]
      · have hsub : List.Sublist
            ((st.filter (fun e => !(e.id == i))).map Entry.id)
            (st.map Entry.id) :=
          (List.filter_sublist st).map Entry.id
        exact List.Nodup.sublist hsub hnd

/-- The simulation holds along any well-formed trace. -/
theorem replay_sim (ops : List Op) :
    ∀ (rows : List Row) (st : List Entry),
      rows.map SQLiteStorage.row_to_entry = st →
      (st.map Entry.id).Nodup →
      okTrace ops st = true →
      (sqliteReplay ops rows).map SQLiteStorage.row_to_entry = jsonReplay ops st := by
  induction ops with
  | nil =>
    intro rows st hsim _ _
    exact hsim
  | cons op ops ih =>
    intro rows st hsim hnd hok
    simp only [okTrace, Bool.and_eq_true] at hok
    obtain ⟨hstep, hok⟩ := hok
    obtain ⟨h1, h2⟩ := step_sim op rows st hsim hnd hstep
    simp only [sqliteReplay, jsonReplay]
    exact ih _ _ h1 h2 hok

/-- C1 counterexample: replaying the same single `add` (same generated
id and timestamp) with the tag list `["a,b"]` against both backends
yields different `list_entries` results (SQLite decodes the tags as
`["a","b"]`). -/
theorem c1_counterexample :
    SQLiteStorage.list_entries
        (sqliteReplay [Op.addOp "f1".toList "2024-01-06T09:00:00".toList drComma] [])
      ≠ JSONStorage.list_entries
        (jsonReplay [Op.addOp "f1".toList "2024-01-06T09:00:00".toList drComma] []) := by
  decide

/-- C1 amended: replaying the same operation sequence (generated ids and
timestamps made to coincide) from empty stores, with every add using a
fresh id and every tag of every add/update non-empty and comma-free,
`list_entries` returns field-for-field identical sequences in the two
backends. -/
theorem c1_cross_backend (ops : List Op) (h : okTrace ops [] = true) :
    SQLiteStorage.list_entries (sqliteReplay ops [])
      = JSONStorage.list_entries (jsonReplay ops []) := by
  have hsim := replay_sim ops [] [] rfl (by simp) h
  unfold SQLiteStorage.list_entries JSONStorage.list_entries
  rw [@stSort_map Row Entry leDateCreatedR leDateCreatedE SQLiteStorage.row_to_entry
    (fun a b => rfl) (sqliteReplay ops []), hsim]

theorem c1_cross_backend_witness :
    SQLiteStorage.list_entries
        (sqliteReplay
          [Op.addOp "w1".toList "2024-01-06T09:00:00".toList drGood,
           Op.updateOp "w1".toList "2024-01-07T08:00:00".toList updGood,
           Op.deleteOp "zz".toList] [])
      = JSONStorage.list_entries
        (jsonReplay
          [Op.addOp "w1".toList "2024-01-06T09:00:00".toList drGood,
           Op.updateOp "w1".toList "2024-01-07T08:00:00".toList updGood,
           Op.deleteOp "zz".toList] []) :=
  c1_cross_backend
    [Op.addOp "w1".toList "2024-01-06T09:00:00".toList drGood,
     Op.updateOp "w1".toList "2024-01-07T08:00:00".toList updGood,
     Op.deleteOp "zz".toList] (by decide)

end TerminalDiary
